import Mathlib

/-!
Shallow embedding of the cipher library of `cryptography_tools_bot`
(`src/ciphers/ciphers.py`, `columnar_transposition.py`, `scytale_cipher.py`,
`rail_fence.py`, `utils.py`).

Modelling conventions:
* Python `str` is modelled as `List Char`; string concatenation (`+=`) becomes
  list append, so a loop `for letter in text: out += f(letter)` becomes
  `text.flatMap f` (or `text.map` when `f` yields single characters).
* Python `dict` built by a sequence of assignments is modelled as the
  association list of those assignments in order; lookup (`d.get`) is
  `pyDictGet`, which returns the value of the LAST binding of the key, the
  semantics of Python dict assignment (later assignments override earlier
  ones — this matters for the inverted mappings of the old Baconian table,
  where two letters share one code).
* Character predicates (`islower`, `isupper`, `isalpha`, `isnumeric`) are
  modelled by the ASCII predicates `Char.isLower` / `Char.isUpper` /
  `Char.isAlpha` / `Char.isDigit`.  The Python predicates are Unicode-aware,
  but every mapping in this library only holds ASCII keys, so a non-ASCII
  letter falls through unchanged in both the source and the model.
* Raised exceptions are modelled with `Except PyErr`.
-/

set_option maxRecDepth 4000

/-- Exceptions raised by the library: `ValueError` raised explicitly by the
source, `ZeroDivisionError` raised by Python itself on `// 0`. -/
inductive PyErr where
  | valueError : PyErr
  | zeroDivisionError : PyErr
deriving DecidableEq, Repr

/-- Lookup in a Python dict represented as the list of its key/value
assignments in program order: the value of the last matching assignment wins,
exactly as repeated `d[k] = v` assignments behave in Python. -/
def pyDictGet {α β : Type} [DecidableEq α] (pairs : List (α × β)) (key : α) :
    Option β :=
  pairs.foldl (fun acc p => if p.1 = key then some p.2 else acc) none

/-! ### The substitution engine (`SubstitutionCipher`, ciphers.py lines 21-104) -/

/-- Source: `string.ascii_lowercase`. -/
def asciiLowercase : List Char := "abcdefghijklmnopqrstuvwxyz".data

/-- A 26-entry cipher alphabet of single characters, as a list of
single-character strings (lists), the shape the shared engine consumes. -/
def to_symbols (l : List Char) : List (List Char) := l.map (fun c => [c])

/-- Source: `cipher_mapping`, the `"lowercase"` component — the dict built by
`mapping["lowercase"][val] = self.cipher_alphabets[i]` over
`enumerate(string.ascii_lowercase)`. -/
def cipher_mapping_lower (alphs : List (List Char)) : List (Char × List Char) :=
  asciiLowercase.zip alphs

/-- Source: `cipher_mapping`, the `"uppercase"` component —
`mapping["uppercase"][val.upper()] = self.cipher_alphabets[i].upper()`. -/
def cipher_mapping_upper (alphs : List (List Char)) : List (Char × List Char) :=
  (asciiLowercase.map Char.toUpper).zip (alphs.map (List.map Char.toUpper))

/-- Source: `SubstitutionCipher.cipher` — per character: lowercase letters go
through the lowercase mapping (falling back to the character itself),
uppercase through the uppercase mapping, anything else passes unchanged. -/
def sub_cipher (alphs : List (List Char)) (text : List Char) : List Char :=
  text.flatMap (fun c =>
    if c.isLower then (pyDictGet (cipher_mapping_lower alphs) c).getD [c]
    else if c.isUpper then (pyDictGet (cipher_mapping_upper alphs) c).getD [c]
    else [c])

/-- Source: `inverse_lower = {v: k for k, v in self.mapping["lowercase"].items()}`,
the inverted dict (as its assignment list; `pyDictGet` applies the last-wins
override semantics on duplicated symbols). -/
def inverse_mapping_lower (alphs : List (List Char)) : List (List Char × Char) :=
  (cipher_mapping_lower alphs).map Prod.swap

/-- Source: `inverse_upper = {v: k for k, v in self.mapping["uppercase"].items()}`. -/
def inverse_mapping_upper (alphs : List (List Char)) : List (List Char × Char) :=
  (cipher_mapping_upper alphs).map Prod.swap

/-- Source: `SubstitutionCipher.decipher` — per character, inverse lookup with
fallback to the character itself.  The dict keys are the cipher symbols; the
character-at-a-time loop looks up the one-character string `[c]`. -/
def sub_decipher (alphs : List (List Char)) (text : List Char) : List Char :=
  text.map (fun c =>
    if c.isLower then (pyDictGet (inverse_mapping_lower alphs) [c]).getD c
    else if c.isUpper then (pyDictGet (inverse_mapping_upper alphs) [c]).getD c
    else c)

/-! ### Cipher variants (ciphers.py lines 107-272) -/

/-- Source: `Atbash.__init__` — `list(string.ascii_lowercase[::-1])`. -/
def atbash_alphabet : List Char := asciiLowercase.reverse

/-- Source: `Rotate.shift_to` —
`[chr((ord(char) - 97 + self.shift) % 26 + 97) for char in string.ascii_lowercase]`.
Python `%` on a possibly negative left operand is `Int.emod`. -/
def rotate_shift_to (shift : ℤ) : List Char :=
  asciiLowercase.map (fun c =>
    Char.ofNat ((((c.toNat : ℤ) - 97 + shift) % 26 + 97).toNat))

/-- Source: `list(dict.fromkeys(self.keyword))` inside
`MixedAlphabet.mixed_cipher_alphabets` — the keyword with duplicates removed,
keeping the first occurrence of each character in order (Python dicts keep
insertion order, so this left fold that appends unseen characters is exactly
that). -/
def py_dedup (l : List Char) : List Char :=
  l.foldl (fun acc c => if c ∈ acc then acc else acc ++ [c]) []

/-- Source: `MixedAlphabet.mixed_cipher_alphabets` — start from the
deduplicated keyword, then walk `string.ascii_lowercase` appending each letter
not already present (the membership test is against the growing list, as in
the source loop). -/
def mixed_cipher_alphabets (keyword : List Char) : List Char :=
  asciiLowercase.foldl (fun acc c => if c ∈ acc then acc else acc ++ [c])
    (py_dedup keyword)

/-- Source: `SimpleSubstitution.__init__` with a user-supplied alphabet —
lowercase it, reject unless it is 26 characters whose set is exactly `a`-`z`
(`set` equality is modelled by `toFinset` equality), else keep it. -/
def simple_substitution_alphabet (cipher_alphabets : List Char) :
    Except PyErr (List Char) :=
  let lower := cipher_alphabets.map Char.toLower
  if lower.length ≠ 26 ∨ lower.toFinset ≠ asciiLowercase.toFinset then
    .error .valueError
  else
    .ok lower

/-! ### Baconian (ciphers.py lines 275-379) -/

/-- Source: `Baconian.modern_baconian_cipher` (26 distinct 5-character codes). -/
def modern_baconian_cipher : List (List Char) :=
  ["aaaaa".data, "aaaab".data, "aaaba".data, "aaabb".data, "aabaa".data,
   "aabab".data, "aabba".data, "aabbb".data, "abaaa".data, "abaab".data,
   "ababa".data, "ababb".data, "abbaa".data, "abbab".data, "abbba".data,
   "abbbb".data, "baaaa".data, "baaab".data, "baaba".data, "baabb".data,
   "babaa".data, "babab".data, "babba".data, "babbb".data, "bbaaa".data,
   "bbaab".data]

/-- Source: `Baconian.old_baconian_cipher` (27-style historical table laid out
over 26 letters: I and J share `abaaa`, U and V share `baabb`). -/
def old_baconian_cipher : List (List Char) :=
  ["aaaaa".data, "aaaab".data, "aaaba".data, "aaabb".data, "aabaa".data,
   "aabab".data, "aabba".data, "aabbb".data, "abaaa".data, "abaaa".data,
   "abaab".data, "ababa".data, "ababb".data, "abbaa".data, "abbab".data,
   "abbba".data, "abbbb".data, "baaaa".data, "baaab".data, "baaba".data,
   "baabb".data, "baabb".data, "babaa".data, "babab".data, "babba".data,
   "babbb".data]

/-- Source: `Baconian.__init__` — pick the modern or the old table. -/
def baconian_alphabet (modern_implementation : Bool) : List (List Char) :=
  if modern_implementation then modern_baconian_cipher else old_baconian_cipher

/-- Source: `Baconian.decipher` — consume the text in 5-character blocks;
a single space, newline or tab passes through; a block whose first character
is lowercase is looked up in the inverted lowercase mapping, otherwise in the
inverted uppercase mapping, falling back to `"?"`.
`(c :: rest).drop 5` is the advance `i += word_length`. -/
def baconian_decipher (alphs : List (List Char)) : List Char → List Char
  | [] => []
  | c :: rest =>
      if c = ' ' ∨ c = '\n' ∨ c = '\t' then
        c :: baconian_decipher alphs rest
      else
        (if c.isLower then
            (pyDictGet (inverse_mapping_lower alphs) ((c :: rest).take 5)).getD '?'
          else
            (pyDictGet (inverse_mapping_upper alphs) ((c :: rest).take 5)).getD '?')
          :: baconian_decipher alphs ((c :: rest).drop 5)
  termination_by t => t.length
  decreasing_by
    · simp
    · simp
      omega

/-! ### PolybiusSquare (ciphers.py lines 382-469) -/

/-- Source: `PolybiusSquare.cipher_alphabets` — 26 two-character coordinates. -/
def polybius_cipher_alphabets : List (List Char) :=
  ["00".data, "01".data, "02".data, "03".data, "04".data,
   "10".data, "11".data, "12".data, "13".data, "14".data,
   "20".data, "21".data, "22".data, "23".data, "24".data,
   "30".data, "31".data, "32".data, "33".data, "34".data,
   "40".data, "41".data, "42".data, "43".data, "44".data,
   "51".data]

/-- Source: `PolybiusSquare.cipher` — like the engine's `cipher` but with an
extra branch: numeric characters are dropped (`cipher_text += ""`). -/
def polybius_cipher (text : List Char) : List Char :=
  text.flatMap (fun c =>
    if c.isLower then
      (pyDictGet (cipher_mapping_lower polybius_cipher_alphabets) c).getD [c]
    else if c.isUpper then
      (pyDictGet (cipher_mapping_upper polybius_cipher_alphabets) c).getD [c]
    else if c.isDigit then []
    else [c])

/-- Source: `PolybiusSquare.decipher` — consume the text in 2-character
blocks; a single space, newline or tab passes through; every block is looked
up only in the inverted lowercase mapping, falling back to `"?"`. -/
def polybius_decipher : List Char → List Char
  | [] => []
  | c :: rest =>
      if c = ' ' ∨ c = '\n' ∨ c = '\t' then
        c :: polybius_decipher rest
      else
        (pyDictGet (inverse_mapping_lower polybius_cipher_alphabets)
            ((c :: rest).take 2)).getD '?'
          :: polybius_decipher ((c :: rest).drop 2)
  termination_by t => t.length
  decreasing_by
    · simp
    · simp
      omega

/-! ### Shared text normalisation (utils.py) -/

/-- Source: `omit_blank_spaces` — `"".join(s.split())`, i.e. remove all
whitespace (modelled over the ASCII whitespace of `Char.isWhitespace`). -/
def omit_blank_spaces (s : List Char) : List Char :=
  s.filter (fun c => ¬ c.isWhitespace)

/-- Source: `omit_all_except_alpha` — keep only the alphabetic characters. -/
def omit_all_except_alpha (s : List Char) : List Char :=
  s.filter Char.isAlpha

/-! ### Columnar transposition (columnar_transposition.py)

The grid code is imperative; the embedding uses the closed forms of the grid
cells, which follow from the strictly sequential fills:

* `cipher` fills the `ceil(n/k) × k` grid row-major with a running index that
  advances once per placed character, so cell `(r, c)` holds `p[r*k + c]`
  when `r*k + c < n` and stays empty otherwise;
* `decipher` fills whole columns in key order with the same kind of running
  index over the raw ciphertext, so the column at position `j` of the key
  order receives `ct[j*rows + r]` in row `r` when `j*rows + r < len(ct)`;
  reading row-major and skipping empty cells then yields, at row `r` and
  column `c`, the character `ct[order.indexOf(c) * rows + r]` (when `c` is
  not in the order — impossible here, since the order is a permutation of the
  column indices — `indexOf` returns `k` and the index `k*rows + r ≥ len(ct)`
  is out of range, i.e. an empty cell, so the closed form is total). -/

/-- Source: `ColumnarTransposition._get_key_order` —
`sorted(range(len(self.key)), key=lambda i: (self.key[i], i))`.  Python's
stable `sorted` by the injective key `(key[i], i)` produces the unique list
sorted under the lexicographic order, which `insertionSort` with that total
order also produces. -/
def get_key_order (key : List Char) : List ℕ :=
  List.insertionSort
    (fun i j => key.getD i ' ' < key.getD j ' ' ∨
      (key.getD i ' ' = key.getD j ' ' ∧ i ≤ j))
    (List.range key.length)

/-- Python ceil division `-(-n // k)` for natural `n` and positive `k`. -/
def ceil_div (n k : ℕ) : ℕ := (n + k - 1) / k

/-- Source: `ColumnarTransposition.cipher` — uppercase the key, strip the
text to letters and uppercase it, fill the grid row-major, then read the
columns in key order skipping empty cells. -/
def columnar_cipher (key : List Char) (text : List Char) : List Char :=
  let K := key.map Char.toUpper
  let p := (omit_all_except_alpha text).map Char.toUpper
  let k := K.length
  let rows := ceil_div p.length k
  (get_key_order K).flatMap (fun c =>
    (List.range rows).filterMap (fun r => p[r * k + c]?))

/-- Source: `ColumnarTransposition.decipher` — note the grid is sized by and
filled from the RAW ciphertext: the normalised copy computed on the first
line of the source (`plaintext = omit_all_except_alpha(ciphertext).upper()`)
is never used afterwards.  Columns are filled in key order, then the grid is
read row-major skipping empty cells. -/
def columnar_decipher (key : List Char) (ciphertext : List Char) : List Char :=
  let K := key.map Char.toUpper
  let k := K.length
  let rows := ceil_div ciphertext.length k
  let order := get_key_order K
  (List.range rows).flatMap (fun r =>
    (List.range k).filterMap (fun c =>
      ciphertext[List.indexOf c order * rows + r]?))

/-! ### Scytale (scytale_cipher.py) -/

/-- Source: `Scytale.cipher` — raise `ValueError` when
`self.key >= len(plaintext) // 2` (the RAW text length, before
normalisation), otherwise run the inherited columnar cipher with the
overridden grid shape (`self.key` columns, `-(-len(text) // self.key)` rows,
Python floor division `Int.fdiv`) and the overridden identity key order
`range(self.key)`.  A zero key passes the guard whenever `len(text) >= 2`
and then crashes with `ZeroDivisionError` in the ceil division. -/
def scytale_cipher (key : ℤ) (text : List Char) : Except PyErr (List Char) :=
  if (text.length : ℤ) / 2 ≤ key then
    .error .valueError
  else if key = 0 then
    .error .zeroDivisionError
  else
    let p := (omit_all_except_alpha text).map Char.toUpper
    let row_len := -((-(p.length : ℤ)).fdiv key)
    let rows := row_len.toNat
    let k := key.toNat
    .ok ((List.range k).flatMap (fun c =>
      (List.range rows).filterMap (fun r => p[r * k + c]?)))

/-! ### Rail fence (rail_fence.py)

The zig-zag pointer of the source walks `row += direction`, flipping
`direction` after the step whenever the new row hits the top or bottom rail;
`zigzag_rows` lists the row index visited at each column. -/

/-- Source: the shared zig-zag walk of `create_pattern` /
`create_rail_fence` / `decipher` step 3 — the row visited at each of `cols`
successive columns, starting from `row` with step `direction`. -/
def zigzag_walk (row_length : ℕ) : (cols : ℕ) → (row : ℤ) → (direction : ℤ) →
    List ℤ
  | 0, _, _ => []
  | cols + 1, row, direction =>
      let row2 := row + direction
      let direction2 :=
        if row2 = (row_length : ℤ) - 1 ∨ row2 = 0 then -direction else direction
      row :: zigzag_walk row_length cols row2 direction2

/-- Rows visited over the whole string, from row `0` with direction `1`. -/
def zigzag_rows (row_length : ℕ) (len : ℕ) : List ℤ :=
  zigzag_walk row_length len 0 1

/-- The column indices in the order the row-major fill of
`RailFence.decipher` step 2 visits the marked cells: all columns marked in
row 0 first (in column order), then row 1, and so on.  The mask marks, for
each column `c`, exactly the cell in row `zigzag_rows[c]`. -/
def rail_fence_fill_order (row_length : ℕ) (len : ℕ) : List ℕ :=
  let zz := zigzag_rows row_length len
  (List.range row_length).flatMap (fun r =>
    (List.range len).filter (fun c => zz.getD c 0 = (r : ℤ)))

/-- Source: `RailFence.__init__` — reject `row_length < 2` with `ValueError`,
else store the normalised, uppercased text (`omit_blank_spaces` when
`str_validation == "omit_spaces"`, `omit_all_except_alpha` otherwise) and the
row count. -/
def rail_fence_make (s : List Char) (row_length : ℤ) (omit_spaces : Bool) :
    Except PyErr (List Char × ℕ) :=
  if row_length < 2 then
    .error .valueError
  else
    .ok ((if omit_spaces then omit_blank_spaces s
          else omit_all_except_alpha s).map Char.toUpper,
      row_length.toNat)

/-- Source: `RailFence.cipher (create_rail_fence())` — the zig-zag grid holds
`s[c]` at `(zigzag_rows[c], c)`; reading it row-major and skipping empty
cells emits, for each row in turn, the characters of the columns marked in
that row, i.e. `s[c]` for `c` over `rail_fence_fill_order`. -/
def rail_fence_cipher (s : List Char) (row_length : ℕ) : List Char :=
  (rail_fence_fill_order row_length s.length).map (fun c => s.getD c ' ')

/-- Source: `RailFence.decipher` — identity on `row_length < 2` (dead code:
the constructor already rejects those) or empty text; otherwise fill the
marked cells row-major with the stored text (so the cell of column `c` gets
`s[position of c in the row-major fill order]`), then re-walk the zig-zag
reading one character per column. -/
def rail_fence_decipher (s : List Char) (row_length : ℕ) : List Char :=
  if row_length < 2 ∨ s.length = 0 then
    s
  else
    let fill := rail_fence_fill_order row_length s.length
    (List.range s.length).map (fun c => s.getD (List.indexOf c fill) ' ')

/-- The hypothesis of the substitution round-trip: a 26-entry cipher
alphabet of distinct single lowercase letters. -/
def valid_single_alphabet (alph : List Char) : Prop :=
  alph.length = 26 ∧ alph.Nodup ∧ ∀ c ∈ alph, c.isLower = true

/-! ## Theorems -/

/-! ### Dict lookup lemmas -/

theorem pyDictGet_nil {α β : Type} [DecidableEq α] (key : α) :
    pyDictGet ([] : List (α × β)) key = none := rfl

theorem pyDictGet_foldl_acc {α β : Type} [DecidableEq α]
    (key : α) (ps : List (α × β)) (acc : Option β) :
    ps.foldl (fun acc p => if p.1 = key then some p.2 else acc) acc
      = (pyDictGet ps key).rec acc some := by
  induction ps generalizing acc with
  | nil => rfl
  | cons p ps ih =>
      rw [List.foldl_cons, ih]
      show _ = (pyDictGet (p :: ps) key).rec acc some
      rw [show pyDictGet (p :: ps) key
            = ps.foldl (fun acc q => if q.1 = key then some q.2 else acc)
                (if p.1 = key then some p.2 else none) from rfl, ih]
      cases pyDictGet ps key with
      | some v => rfl
      | none => by_cases h : p.1 = key <;> simp [h]

/-- Later assignments override earlier ones: the head of the list only
matters when no later pair binds the key. -/
theorem pyDictGet_cons {α β : Type} [DecidableEq α]
    (p : α × β) (ps : List (α × β)) (key : α) :
    pyDictGet (p :: ps) key
      = (pyDictGet ps key).rec (if p.1 = key then some p.2 else none) some := by
  show ps.foldl _ (if p.1 = key then some p.2 else none) = _
  exact pyDictGet_foldl_acc key ps _

theorem pyDictGet_eq_none {α β : Type} [DecidableEq α]
    {ps : List (α × β)} {key : α} (h : ∀ p ∈ ps, p.1 ≠ key) :
    pyDictGet ps key = none := by
  induction ps with
  | nil => rfl
  | cons p ps ih =>
      rw [pyDictGet_cons, ih fun q hq => h q (List.mem_cons_of_mem p hq)]
      simp [h p (List.mem_cons_self p ps)]

/-- A successful dict lookup returns a value that was bound to that key. -/
theorem pyDictGet_mem {α β : Type} [DecidableEq α]
    {ps : List (α × β)} {key : α} {v : β} (h : pyDictGet ps key = some v) :
    (key, v) ∈ ps := by
  induction ps with
  | nil => simp [pyDictGet] at h
  | cons p ps ih =>
      obtain ⟨a, b⟩ := p
      rw [pyDictGet_cons] at h
      cases hps : pyDictGet ps key with
      | some w =>
          rw [hps] at h
          injection h with h
          subst h
          exact List.mem_cons_of_mem _ (ih hps)
      | none =>
          rw [hps] at h
          by_cases hk : (a, b).1 = key
          · rw [if_pos hk] at h
            injection h with h
            simp only at hk
            subst hk
            subst h
            exact List.mem_cons_self _ _
          · rw [if_neg hk] at h
            exact absurd h (by simp)

/-- Looking up the `i`-th key of a zip with distinct keys returns the `i`-th
value. -/
theorem pyDictGet_zip {α β : Type} [DecidableEq α]
    {ks : List α} {vs : List β} (hnd : ks.Nodup) {i : ℕ} {k : α} {v : β}
    (hk : ks[i]? = some k) (hv : vs[i]? = some v) :
    pyDictGet (ks.zip vs) k = some v := by
  induction ks generalizing vs i with
  | nil => simp at hk
  | cons a ks ih =>
      cases vs with
      | nil => simp at hv
      | cons b vs =>
          cases i with
          | zero =>
              simp only [List.getElem?_cons_zero, Option.some.injEq] at hk hv
              subst hk; subst hv
              have hnone : pyDictGet (ks.zip vs) a = none :=
                pyDictGet_eq_none (fun p hp hpk =>
                  (List.nodup_cons.mp hnd).1 (hpk ▸ (List.of_mem_zip hp).1))
              rw [List.zip_cons_cons, pyDictGet_cons, hnone]
              simp
          | succ i =>
              simp only [List.getElem?_cons_succ] at hk hv
              rw [List.zip_cons_cons, pyDictGet_cons,
                ih (List.nodup_cons.mp hnd).2 hk hv]


/-! ### Character facts (ASCII) -/

theorem char_isLower_iff (c : Char) :
    c.isLower = true ↔ 97 ≤ c.toNat ∧ c.toNat ≤ 122 := by
  simp only [Char.isLower, ge_iff_le, Bool.and_eq_true, decide_eq_true_eq,
    UInt32.le_def, BitVec.le_def]
  exact Iff.rfl

theorem char_isUpper_iff (c : Char) :
    c.isUpper = true ↔ 65 ≤ c.toNat ∧ c.toNat ≤ 90 := by
  simp only [Char.isUpper, ge_iff_le, Bool.and_eq_true, decide_eq_true_eq,
    UInt32.le_def, BitVec.le_def]
  exact Iff.rfl

theorem char_toNat_inj {c d : Char} (h : c.toNat = d.toNat) : c = d := by
  have := congrArg Char.ofNat h
  rwa [Char.ofNat_toNat, Char.ofNat_toNat] at this

theorem char_toNat_ofNat {n : ℕ} (h : n < 55296) : (Char.ofNat n).toNat = n := by
  have hv : n.isValidChar := Or.inl h
  rw [Char.ofNat, dif_pos hv]
  cases hv with
  | inl h' => rfl
  | inr h' => rfl

theorem char_isLower_ofNat {n : ℕ} (h1 : 97 ≤ n) (h2 : n ≤ 122) :
    (Char.ofNat n).isLower = true := by
  rw [char_isLower_iff, char_toNat_ofNat (by omega)]
  omega

theorem char_isUpper_ofNat {n : ℕ} (h1 : 65 ≤ n) (h2 : n ≤ 90) :
    (Char.ofNat n).isUpper = true := by
  rw [char_isUpper_iff, char_toNat_ofNat (by omega)]
  omega

theorem char_not_isLower_of_isUpper {c : Char} (h : c.isUpper = true) :
    c.isLower = false := by
  rw [char_isUpper_iff] at h
  by_contra hc
  rw [Bool.not_eq_false, char_isLower_iff] at hc
  omega

theorem char_toUpper_of_isLower {c : Char} (h : c.isLower = true) :
    c.toUpper = Char.ofNat (c.toNat - 32) := by
  rw [char_isLower_iff] at h
  rw [Char.toUpper, if_pos (by omega)]

theorem char_toNat_toUpper_of_isLower {c : Char} (h : c.isLower = true) :
    c.toUpper.toNat = c.toNat - 32 := by
  rw [char_toUpper_of_isLower h, char_toNat_ofNat (by
    rw [char_isLower_iff] at h
    omega)]

theorem char_isUpper_toUpper_of_isLower {c : Char} (h : c.isLower = true) :
    c.toUpper.isUpper = true := by
  rw [char_isUpper_iff, char_toNat_toUpper_of_isLower h]
  rw [char_isLower_iff] at h
  omega

theorem char_toUpper_inj_on_lower {c d : Char}
    (hc : c.isLower = true) (hd : d.isLower = true)
    (h : c.toUpper = d.toUpper) : c = d := by
  have := congrArg Char.toNat h
  rw [char_toNat_toUpper_of_isLower hc, char_toNat_toUpper_of_isLower hd] at this
  rw [char_isLower_iff] at hc hd
  exact char_toNat_inj (by omega)


theorem asciiLowercase_eq_range :
    asciiLowercase = (List.range 26).map (fun i => Char.ofNat (97 + i)) := by
  decide

theorem asciiLowercase_nodup : asciiLowercase.Nodup := by decide


/-! ### Rotation: shift normalisation (claim C9) -/

theorem rotate_shift_to_emod (shift : ℤ) :
    rotate_shift_to shift = rotate_shift_to (shift % 26) := by
  unfold rotate_shift_to
  apply List.map_congr_left
  intro c _
  have h : ((c.toNat : ℤ) - 97 + shift) % 26
      = ((c.toNat : ℤ) - 97 + shift % 26) % 26 := by
    omega
  rw [h]

/-- Claim C9: for every integer shift and every input string, the rotation
cipher with shift `s` coincides with the one with shift `s % 26`
(Python modulo, i.e. `Int.emod`); in particular `Caesar(shift=29)` and
`Caesar(shift=3)` (both plain `Rotate` instances) send `"a"` to `"d"`. -/
theorem rotate_cipher_shift_mod_26 :
    (∀ (shift : ℤ) (text : List Char),
      sub_cipher (to_symbols (rotate_shift_to shift)) text
        = sub_cipher (to_symbols (rotate_shift_to (shift % 26))) text)
    ∧ sub_cipher (to_symbols (rotate_shift_to 29)) "a".data = "d".data
    ∧ sub_cipher (to_symbols (rotate_shift_to 3)) "a".data = "d".data := by
  refine ⟨fun shift text => ?_, by decide, by decide⟩
  rw [rotate_shift_to_emod shift]

/-! ### Old Baconian shared codes (claim C3) -/

/-- Claim C3, counterexample: under the old table, `cipher("IJ")` is the
block `"ABAAA"` twice, but deciphering it yields `"JJ"`, not the claimed
`"II"` — the inverted Python dict keeps the LAST letter bound to a shared
code. -/
theorem old_baconian_decipher_ij_ne_ii :
    sub_cipher (baconian_alphabet false) "IJ".data
        = ("ABAAA".data ++ "ABAAA".data)
    ∧ baconian_decipher (baconian_alphabet false)
        (sub_cipher (baconian_alphabet false) "IJ".data) ≠ "II".data := by
  constructor
  · decide
  · have h : sub_cipher (baconian_alphabet false) "IJ".data
        = "ABAAAABAAA".data := by decide
    rw [h]
    simp [baconian_decipher]
    decide

/-- Claim C3 as amended: `cipher("IJ")` yields the same 5-character block
twice, and deciphering that output returns `"II"` replaced by `"JJ"` — a
shared code always decodes to the LAST letter of its pair (same for `"UV"`,
which round-trips to `"VV"`). -/
theorem old_baconian_shared_code_decodes_last :
    sub_cipher (baconian_alphabet false) "IJ".data
        = ("ABAAA".data ++ "ABAAA".data)
    ∧ baconian_decipher (baconian_alphabet false)
        (sub_cipher (baconian_alphabet false) "IJ".data) = "JJ".data
    ∧ baconian_decipher (baconian_alphabet false)
        (sub_cipher (baconian_alphabet false) "UV".data) = "VV".data := by
  refine ⟨by decide, ?_, ?_⟩
  · have h : sub_cipher (baconian_alphabet false) "IJ".data
        = "ABAAAABAAA".data := by decide
    rw [h]
    simp [baconian_decipher]
    decide
  · have h : sub_cipher (baconian_alphabet false) "UV".data
        = "BAABBBAABB".data := by decide
    rw [h]
    simp [baconian_decipher]
    decide

/-! ### Columnar decipher does not normalise (claim C4) -/

/-- Claim C4: the code computes the normalised ciphertext and then never
uses it — `decipher` fills the grid from the RAW input, so for key `"AB"`
the input `"a b"` deciphers to `"ab "`, which contains a lowercase letter
and a space, contradicting the claim that the output contains only
uppercase letters. -/
theorem columnar_decipher_keeps_raw_characters :
    columnar_decipher "AB".data "a b".data = "ab ".data
    ∧ ¬ (∀ c ∈ columnar_decipher "AB".data "a b".data, c.isUpper = true) := by
  constructor
  · decide
  · decide

/-! ### Rail fence worked example (claim C5) -/

/-- Claim C5, counterexample: `decipher` applied to the classic PLAINTEXT
does not reproduce the classic ciphertext — it computes the inverse
permutation, yielding `"WSACEOTVAEORRENDEFCLDEEEI"`. -/
theorem rail_fence_decipher_of_plaintext_ne_ciphertext :
    rail_fence_decipher "WEAREDISCOVEREDFLEEATONCE".data 3
        = "WSACEOTVAEORRENDEFCLDEEEI".data
    ∧ rail_fence_decipher "WEAREDISCOVEREDFLEEATONCE".data 3
        ≠ "WECRLTEERDSOEEFEAOCAIVDEN".data := by
  constructor
  · decide
  · decide

/-- Claim C5 as amended: it is the CIPHER direction that reproduces the
classic worked example — `RailFence("WEAREDISCOVEREDFLEEATONCE",
row_length=3).cipher(create_rail_fence())` returns
`"WECRLTEERDSOEEFEAOCAIVDEN"`, and `decipher` maps that ciphertext back to
the plaintext. -/
theorem rail_fence_worked_example :
    rail_fence_cipher "WEAREDISCOVEREDFLEEATONCE".data 3
        = "WECRLTEERDSOEEFEAOCAIVDEN".data
    ∧ rail_fence_decipher "WECRLTEERDSOEEFEAOCAIVDEN".data 3
        = "WEAREDISCOVEREDFLEEATONCE".data := by
  constructor
  · decide
  · decide

/-! ### Columnar transposition round trip (claim C2) -/

/-- Claim C2, counterexample: for key `"ZEBRA"` and the uppercase
letters-only input `"ABCDEF"` (length 6, not a multiple of the key length
5), the round trip fails: the ciphertext is `"ECBDAF"` and deciphering it
returns `"ABEFDC"`. -/
theorem columnar_roundtrip_fails_on_ragged_grid :
    columnar_cipher "ZEBRA".data "ABCDEF".data = "ECBDAF".data
    ∧ columnar_decipher "ZEBRA".data (columnar_cipher "ZEBRA".data "ABCDEF".data)
        ≠ "ABCDEF".data := by
  constructor
  · decide
  · decide

/-! ### Scytale guard (claim C7) -/

/-- Claim C7, counterexample: for `key = 0` and `text = "ab"` the guard
`key >= len(text)//2` is false (`0 < 1`), so the claim says the columnar
ciphertext is returned — but the code crashes with `ZeroDivisionError` in
the ceil division `-(-len(text) // key)`. -/
theorem scytale_zero_key_division_error :
    scytale_cipher 0 "ab".data = .error .zeroDivisionError
    ∧ ¬ (("ab".data.length : ℤ) / 2 ≤ 0) := by
  constructor
  · rfl
  · decide

/-- Claim C7 as amended (only `key = 0` excluded — it crashes with
`ZeroDivisionError` instead, see the counterexample): for every nonzero
integer key, `cipher` raises `ValueError` exactly when
`key >= len(text) // 2` on the raw text length, and otherwise returns
normally with the columnar-transposition ciphertext (a negative key passes
the guard, builds an empty grid and an empty `range(key)` read loop, and so
returns the degenerate empty ciphertext); in particular
`Scytale(key=10).cipher("short")` fails with this error. -/
theorem scytale_guard :
    (∀ (key : ℤ), key ≠ 0 → ∀ text : List Char,
      ((scytale_cipher key text = .error .valueError)
        ↔ (text.length : ℤ) / 2 ≤ key)
      ∧ ((∃ ct, scytale_cipher key text = .ok ct)
        ↔ key < (text.length : ℤ) / 2))
    ∧ scytale_cipher 10 "short".data = .error .valueError := by
  refine ⟨fun key hk text => ?_, by rfl⟩
  constructor
  · constructor
    · intro h
      by_contra hc
      unfold scytale_cipher at h
      rw [if_neg hc, if_neg hk] at h
      exact absurd h (by simp)
    · intro h
      unfold scytale_cipher
      rw [if_pos h]
  · constructor
    · rintro ⟨ct, h⟩
      by_contra hc
      push_neg at hc
      unfold scytale_cipher at h
      rw [if_pos hc] at h
      exact absurd h (by simp)
    · intro h
      unfold scytale_cipher
      rw [if_neg (by omega), if_neg hk]
      exact ⟨_, rfl⟩

/-- Witness for `scytale_guard`: key 3 against `"HELLOWORLD"` (length 10)
is accepted, key -1 against `"ab"` passes the guard and returns normally
(the degenerate empty ciphertext), and 10 against `"short"` is rejected. -/
theorem scytale_guard_witness :
    ((3 : ℤ) ≠ 0
      ∧ (((scytale_cipher 3 "HELLOWORLD".data = .error .valueError)
          ↔ (("HELLOWORLD".data.length : ℤ) / 2 ≤ 3))
        ∧ ((∃ ct, scytale_cipher 3 "HELLOWORLD".data = .ok ct)
          ↔ 3 < (("HELLOWORLD".data.length : ℤ) / 2))))
    ∧ ((-1 : ℤ) ≠ 0
      ∧ (((scytale_cipher (-1) "ab".data = .error .valueError)
          ↔ (("ab".data.length : ℤ) / 2 ≤ -1))
        ∧ ((∃ ct, scytale_cipher (-1) "ab".data = .ok ct)
          ↔ (-1 : ℤ) < (("ab".data.length : ℤ) / 2)))) :=
  ⟨⟨by decide, scytale_guard.1 3 (by decide) "HELLOWORLD".data⟩,
    ⟨by decide, scytale_guard.1 (-1) (by decide) "ab".data⟩⟩

/-! ### Rail fence edge cases (claim C6) -/

/-- Claim C6, counterexample: `RailFence("HELLO", row_length=1)` raises
`ValueError` in the constructor — the operation never returns the input
unchanged for `row_length < 2`. -/
theorem rail_fence_small_row_length_raises :
    rail_fence_make "HELLO".data 1 false = .error .valueError := by rfl

/-- Claim C6 as amended: `row_length < 2` is rejected with `ValueError` at
construction (the identity branch of `decipher` for that case is dead code);
for an accepted `row_length` whose stored text is empty after normalisation,
`decipher` returns the (empty) input unchanged. -/
theorem rail_fence_edge_cases :
    (∀ (s : List Char) (row_length : ℤ) (v : Bool), row_length < 2 →
      rail_fence_make s row_length v = .error .valueError)
    ∧ (∀ (s : List Char) (row_length : ℤ) (v : Bool) (st : List Char × ℕ),
        rail_fence_make s row_length v = .ok st → st.1 = [] →
        rail_fence_decipher st.1 st.2 = st.1) := by
  constructor
  · intro s row_length v h
    unfold rail_fence_make
    rw [if_pos h]
  · intro s row_length v st _ h1
    rw [h1]
    unfold rail_fence_decipher
    rw [if_pos (by simp)]

/-- Witness for `rail_fence_edge_cases`: `row_length = 1` is rejected, and
the all-digit input `"123"` normalises to the empty string, on which
`decipher` is the identity. -/
theorem rail_fence_edge_cases_witness :
    ((1 : ℤ) < 2 ∧ rail_fence_make "HELLO".data 1 false = .error .valueError)
    ∧ (rail_fence_make "123".data 3 false = .ok ([], 3)
      ∧ rail_fence_decipher ([] : List Char) 3 = []) :=
  ⟨⟨by decide, rail_fence_edge_cases.1 "HELLO".data 1 false (by decide)⟩,
    ⟨by rfl, rail_fence_edge_cases.2 "123".data 3 false ([], 3) (by rfl) rfl⟩⟩

/-! ### Block decoding shape (claims C8, C10) -/

theorem mem_asciiLowercase_isLower : ∀ c ∈ asciiLowercase, c.isLower = true := by
  decide

theorem mem_asciiUppercase_isUpper :
    ∀ c ∈ asciiLowercase.map Char.toUpper, c.isUpper = true := by
  decide

/-- Values of an inverted lowercase mapping are plain lowercase letters (the
keys `a`-`z` of the forward mapping), for EVERY cipher alphabet. -/
theorem inverse_mapping_lower_value_isLower {alphs : List (List Char)}
    {b : List Char} {v : Char}
    (h : pyDictGet (inverse_mapping_lower alphs) b = some v) :
    v.isLower = true := by
  have hm := pyDictGet_mem h
  unfold inverse_mapping_lower cipher_mapping_lower at hm
  obtain ⟨p, hp, hswap⟩ := List.mem_map.mp hm
  obtain ⟨a, b2⟩ := p
  have h2 : a = v := congrArg Prod.snd hswap
  subst h2
  exact mem_asciiLowercase_isLower a (List.of_mem_zip hp).1

/-- Values of an inverted uppercase mapping are uppercase letters. -/
theorem inverse_mapping_upper_value_isUpper {alphs : List (List Char)}
    {b : List Char} {v : Char}
    (h : pyDictGet (inverse_mapping_upper alphs) b = some v) :
    v.isUpper = true := by
  have hm := pyDictGet_mem h
  unfold inverse_mapping_upper cipher_mapping_upper at hm
  obtain ⟨p, hp, hswap⟩ := List.mem_map.mp hm
  obtain ⟨a, b2⟩ := p
  have h2 : a = v := congrArg Prod.snd hswap
  subst h2
  exact mem_asciiUppercase_isUpper a (List.of_mem_zip hp).1

/-- Every character that `Baconian.decipher` emits is a letter, the
placeholder `?`, or one of the pass-through separators — for any cipher
alphabet, so in particular for both Baconian tables. -/
theorem baconian_decipher_shape (alphs : List (List Char)) (text : List Char) :
    ∀ c ∈ baconian_decipher alphs text,
      c.isAlpha = true ∨ c = '?' ∨ c = ' ' ∨ c = '\n' ∨ c = '\t' := by
  induction text using baconian_decipher.induct alphs with
  | case1 => simp [baconian_decipher]
  | case2 c rest hsep ih =>
      intro d hd
      simp only [baconian_decipher, if_pos hsep] at hd
      rcases List.mem_cons.mp hd with h | h
      · subst h
        rcases hsep with h | h | h <;> subst h <;> simp
      · exact ih d h
  | case3 c rest hsep ih =>
      intro d hd
      simp only [baconian_decipher, if_neg hsep] at hd
      rcases List.mem_cons.mp hd with h | h
      · subst h
        by_cases hc : c.isLower
        · rw [if_pos hc]
          cases hv : pyDictGet (inverse_mapping_lower alphs)
              ((c :: rest).take 5) with
          | some v =>
              left
              have := inverse_mapping_lower_value_isLower hv
              simp [Char.isAlpha, this]
          | none => simp
        · rw [if_neg hc]
          cases hv : pyDictGet (inverse_mapping_upper alphs)
              ((c :: rest).take 5) with
          | some v =>
              left
              have := inverse_mapping_upper_value_isUpper hv
              simp [Char.isAlpha, this]
          | none => simp
      · exact ih d h

/-- Every character that `PolybiusSquare.decipher` emits is a lowercase
letter, the placeholder `?`, or one of the pass-through separators: the
code consults only the inverted lowercase mapping. -/
theorem polybius_decipher_shape (text : List Char) :
    ∀ c ∈ polybius_decipher text,
      c.isLower = true ∨ c = '?' ∨ c = ' ' ∨ c = '\n' ∨ c = '\t' := by
  induction text using polybius_decipher.induct with
  | case1 => simp [polybius_decipher]
  | case2 c rest hsep ih =>
      intro d hd
      simp only [polybius_decipher, if_pos hsep] at hd
      rcases List.mem_cons.mp hd with h | h
      · subst h
        rcases hsep with h | h | h <;> subst h <;> simp
      · exact ih d h
  | case3 c rest hsep ih =>
      intro d hd
      simp only [polybius_decipher, if_neg hsep] at hd
      rcases List.mem_cons.mp hd with h | h
      · subst h
        cases hv : pyDictGet (inverse_mapping_lower polybius_cipher_alphabets)
            ((c :: rest).take 2) with
        | some v => exact Or.inl (inverse_mapping_lower_value_isLower hv)
        | none => simp
      · exact ih d h

/-- A 5-character block bound in the inverted uppercase mapping decodes to
its letter and consumes exactly the block. -/
theorem baconian_decipher_known_block (alphs : List (List Char))
    (c : Char) (bs rest : List Char) (v : Char)
    (hlen : (c :: bs).length = 5)
    (hsep : ¬ (c = ' ' ∨ c = '\n' ∨ c = '\t'))
    (hlow : c.isLower = false)
    (h : pyDictGet (inverse_mapping_upper alphs) (c :: bs) = some v) :
    baconian_decipher alphs ((c :: bs) ++ rest)
      = v :: baconian_decipher alphs rest := by
  have hcons : (c :: bs) ++ rest = c :: (bs ++ rest) := rfl
  rw [hcons]
  simp only [baconian_decipher, if_neg hsep, hlow, Bool.false_eq_true,
    if_false]
  rw [← hcons, List.take_left' hlen, List.drop_left' hlen, h]
  rfl

/-- A 2-character block bound in the inverted lowercase mapping decodes to
its letter and consumes exactly the block. -/
theorem polybius_decipher_known_block
    (c : Char) (bs rest : List Char) (v : Char)
    (hlen : (c :: bs).length = 2)
    (hsep : ¬ (c = ' ' ∨ c = '\n' ∨ c = '\t'))
    (h : pyDictGet (inverse_mapping_lower polybius_cipher_alphabets) (c :: bs)
      = some v) :
    polybius_decipher ((c :: bs) ++ rest) = v :: polybius_decipher rest := by
  have hcons : (c :: bs) ++ rest = c :: (bs ++ rest) := rfl
  rw [hcons]
  simp only [polybius_decipher, if_neg hsep]
  rw [← hcons, List.take_left' hlen, List.drop_left' hlen, h]
  rfl

/-- A 5-character block bound in the inverted lowercase mapping (block
starting with a lowercase character) decodes to its letter and consumes
exactly the block. -/
theorem baconian_decipher_known_block_lower (alphs : List (List Char))
    (c : Char) (bs rest : List Char) (v : Char)
    (hlen : (c :: bs).length = 5)
    (hsep : ¬ (c = ' ' ∨ c = '\n' ∨ c = '\t'))
    (hlow : c.isLower = true)
    (h : pyDictGet (inverse_mapping_lower alphs) (c :: bs) = some v) :
    baconian_decipher alphs ((c :: bs) ++ rest)
      = v :: baconian_decipher alphs rest := by
  have hcons : (c :: bs) ++ rest = c :: (bs ++ rest) := rfl
  rw [hcons]
  simp only [baconian_decipher, if_neg hsep, hlow, if_true]
  rw [← hcons, List.take_left' hlen, List.drop_left' hlen, h]
  rfl

/-- A block absent from BOTH inverted mappings (an unknown block) decodes
to the literal placeholder `?`, whichever case branch is taken. -/
theorem baconian_decipher_unknown_block (alphs : List (List Char))
    (c : Char) (rest : List Char)
    (hsep : ¬ (c = ' ' ∨ c = '\n' ∨ c = '\t'))
    (hl : pyDictGet (inverse_mapping_lower alphs) ((c :: rest).take 5) = none)
    (hu : pyDictGet (inverse_mapping_upper alphs) ((c :: rest).take 5) = none) :
    baconian_decipher alphs (c :: rest)
      = '?' :: baconian_decipher alphs ((c :: rest).drop 5) := by
  simp only [baconian_decipher, if_neg hsep]
  by_cases hc : c.isLower = true
  · rw [if_pos hc, hl]
    rfl
  · rw [if_neg hc, hu]
    rfl

/-- A 2-character block absent from the inverted lowercase mapping decodes
to the literal placeholder `?` in `PolybiusSquare.decipher`. -/
theorem polybius_decipher_unknown_block (c : Char) (rest : List Char)
    (hsep : ¬ (c = ' ' ∨ c = '\n' ∨ c = '\t'))
    (h : pyDictGet (inverse_mapping_lower polybius_cipher_alphabets)
      ((c :: rest).take 2) = none) :
    polybius_decipher (c :: rest)
      = '?' :: polybius_decipher ((c :: rest).drop 2) := by
  simp only [polybius_decipher, if_neg hsep]
  rw [h]
  rfl

/-- Claim C8: the block decoders never raise, for every input string —
each emitted character is a letter (Baconian) / lowercase letter
(Polybius), the literal placeholder `?`, or one of the single-character
separators space, newline, tab; a separator passes through unchanged; every
block bound in an inverse mapping (lowercase or uppercase branch alike)
decodes to its letter; and every unknown block decodes to the literal
placeholder `?`. -/
theorem baconian_polybius_decipher_total_shape :
    (∀ (modern : Bool) (text : List Char),
      ∀ c ∈ baconian_decipher (baconian_alphabet modern) text,
        c.isAlpha = true ∨ c = '?' ∨ c = ' ' ∨ c = '\n' ∨ c = '\t')
    ∧ (∀ (modern : Bool) (text : List Char) (c : Char),
        (c = ' ' ∨ c = '\n' ∨ c = '\t') →
        baconian_decipher (baconian_alphabet modern) (c :: text)
          = c :: baconian_decipher (baconian_alphabet modern) text)
    ∧ (∀ (modern : Bool) (c : Char) (bs rest : List Char) (v : Char),
        (c :: bs).length = 5 → ¬ (c = ' ' ∨ c = '\n' ∨ c = '\t') →
        c.isLower = true →
        pyDictGet (inverse_mapping_lower (baconian_alphabet modern)) (c :: bs)
          = some v →
        baconian_decipher (baconian_alphabet modern) ((c :: bs) ++ rest)
          = v :: baconian_decipher (baconian_alphabet modern) rest)
    ∧ (∀ (modern : Bool) (c : Char) (bs rest : List Char) (v : Char),
        (c :: bs).length = 5 → ¬ (c = ' ' ∨ c = '\n' ∨ c = '\t') →
        c.isLower = false →
        pyDictGet (inverse_mapping_upper (baconian_alphabet modern)) (c :: bs)
          = some v →
        baconian_decipher (baconian_alphabet modern) ((c :: bs) ++ rest)
          = v :: baconian_decipher (baconian_alphabet modern) rest)
    ∧ (∀ (modern : Bool) (c : Char) (rest : List Char),
        ¬ (c = ' ' ∨ c = '\n' ∨ c = '\t') →
        pyDictGet (inverse_mapping_lower (baconian_alphabet modern))
          ((c :: rest).take 5) = none →
        pyDictGet (inverse_mapping_upper (baconian_alphabet modern))
          ((c :: rest).take 5) = none →
        baconian_decipher (baconian_alphabet modern) (c :: rest)
          = '?' :: baconian_decipher (baconian_alphabet modern)
              ((c :: rest).drop 5))
    ∧ (∀ text : List Char, ∀ c ∈ polybius_decipher text,
        c.isLower = true ∨ c = '?' ∨ c = ' ' ∨ c = '\n' ∨ c = '\t')
    ∧ (∀ (text : List Char) (c : Char), (c = ' ' ∨ c = '\n' ∨ c = '\t') →
        polybius_decipher (c :: text) = c :: polybius_decipher text)
    ∧ (∀ (c : Char) (bs rest : List Char) (v : Char),
        (c :: bs).length = 2 → ¬ (c = ' ' ∨ c = '\n' ∨ c = '\t') →
        pyDictGet (inverse_mapping_lower polybius_cipher_alphabets) (c :: bs)
          = some v →
        polybius_decipher ((c :: bs) ++ rest) = v :: polybius_decipher rest)
    ∧ (∀ (c : Char) (rest : List Char),
        ¬ (c = ' ' ∨ c = '\n' ∨ c = '\t') →
        pyDictGet (inverse_mapping_lower polybius_cipher_alphabets)
          ((c :: rest).take 2) = none →
        polybius_decipher (c :: rest)
          = '?' :: polybius_decipher ((c :: rest).drop 2)) := by
  refine ⟨fun modern text => baconian_decipher_shape _ text,
    fun modern text c hsep => ?_,
    fun modern => baconian_decipher_known_block_lower _,
    fun modern => baconian_decipher_known_block _,
    fun modern => baconian_decipher_unknown_block _,
    fun text => polybius_decipher_shape text,
    fun text c hsep => ?_,
    polybius_decipher_known_block,
    polybius_decipher_unknown_block⟩
  · simp only [baconian_decipher, if_pos hsep]
  · simp only [polybius_decipher, if_pos hsep]

/-- Witness for `baconian_polybius_decipher_total_shape` at concrete inputs:
the shape clause at a decoded letter, the separator clause, a known
lowercase block (`"aaaab"` → `b`), a known uppercase block (`"AAAAB"` →
`B`), an unknown Baconian block (`"bbbbb"` → `?`), and the Polybius
separator, known-block (`"00"` → `a`) and unknown-block (`"99"` → `?`)
clauses. -/
theorem baconian_polybius_decipher_total_shape_witness :
    ('a' ∈ baconian_decipher (baconian_alphabet true) "aaaaa".data
      ∧ ('a'.isAlpha = true ∨ 'a' = '?' ∨ 'a' = ' ' ∨ 'a' = '\n' ∨ 'a' = '\t'))
    ∧ baconian_decipher (baconian_alphabet true) (' ' :: "AAAAA".data)
        = ' ' :: baconian_decipher (baconian_alphabet true) "AAAAA".data
    ∧ baconian_decipher (baconian_alphabet true) ("aaaab".data ++ [])
        = 'b' :: baconian_decipher (baconian_alphabet true) []
    ∧ baconian_decipher (baconian_alphabet true) ("AAAAB".data ++ [])
        = 'B' :: baconian_decipher (baconian_alphabet true) []
    ∧ baconian_decipher (baconian_alphabet true) "bbbbb".data
        = '?' :: baconian_decipher (baconian_alphabet true)
            ("bbbbb".data.drop 5)
    ∧ ('?' ∈ polybius_decipher "99".data
      ∧ ('?'.isLower = true ∨ '?' = '?' ∨ '?' = ' ' ∨ '?' = '\n' ∨ '?' = '\t'))
    ∧ polybius_decipher (' ' :: "00".data) = ' ' :: polybius_decipher "00".data
    ∧ polybius_decipher ("00".data ++ " ".data) = 'a' :: polybius_decipher " ".data
    ∧ polybius_decipher "99".data
        = '?' :: polybius_decipher ("99".data.drop 2) := by
  refine ⟨⟨?_, ?_⟩, ?_, ?_, ?_, ?_, ⟨?_, ?_⟩, ?_, ?_, ?_⟩
  · simp [baconian_decipher]
    decide
  · exact baconian_polybius_decipher_total_shape.1 true "aaaaa".data 'a'
      (by simp [baconian_decipher]; decide)
  · exact baconian_polybius_decipher_total_shape.2.1 true "AAAAA".data ' '
      (by decide)
  · exact baconian_polybius_decipher_total_shape.2.2.1 true 'a' "aaab".data []
      'b' (by decide) (by decide) (by decide) (by decide)
  · exact baconian_polybius_decipher_total_shape.2.2.2.1 true 'A' "AAAB".data
      [] 'B' (by decide) (by decide) (by decide) (by decide)
  · exact baconian_polybius_decipher_total_shape.2.2.2.2.1 true 'b'
      "bbbb".data (by decide) (by decide) (by decide)
  · simp [polybius_decipher]
    decide
  · exact baconian_polybius_decipher_total_shape.2.2.2.2.2.1 "99".data '?'
      (by simp [polybius_decipher]; decide)
  · exact baconian_polybius_decipher_total_shape.2.2.2.2.2.2.1 "00".data ' '
      (by decide)
  · exact baconian_polybius_decipher_total_shape.2.2.2.2.2.2.2.1 '0' ['0']
      " ".data 'a' (by decide) (by decide) (by decide)
  · exact baconian_polybius_decipher_total_shape.2.2.2.2.2.2.2.2 '9' ['9']
      (by decide) (by decide)

/-- Claim C10: `PolybiusSquare.decipher` consults only the lowercase inverse
mapping — every output character is a lowercase letter, the placeholder `?`,
or a pass-through whitespace separator, and the round trip loses case:
`decipher(cipher("A")) == "a"`. -/
theorem polybius_decipher_only_lowercase :
    (∀ text : List Char, ∀ c ∈ polybius_decipher text,
      c.isLower = true ∨ c = '?' ∨ c = ' ' ∨ c = '\n' ∨ c = '\t')
    ∧ polybius_decipher (polybius_cipher "A".data) = "a".data := by
  constructor
  · exact polybius_decipher_shape
  · have h : polybius_cipher "A".data = "00".data := by decide
    rw [h]
    simp [polybius_decipher]
    decide

/-- Witness for `polybius_decipher_only_lowercase` at a concrete input. -/
theorem polybius_decipher_only_lowercase_witness :
    'a' ∈ polybius_decipher "00".data
    ∧ ('a'.isLower = true ∨ 'a' = '?' ∨ 'a' = ' ' ∨ 'a' = '\n' ∨ 'a' = '\t') := by
  constructor
  · simp [polybius_decipher]
    decide
  · exact polybius_decipher_only_lowercase.1 "00".data 'a'
      (by simp [polybius_decipher]; decide)

/-! ### The substitution round trip (claim C1) -/

theorem asciiUppercase_eq_range :
    asciiLowercase.map Char.toUpper
      = (List.range 26).map (fun i => Char.ofNat (65 + i)) := by
  decide

theorem asciiUppercase_nodup : (asciiLowercase.map Char.toUpper).Nodup := by
  decide

theorem range_map_getElem? {α : Type} (f : ℕ → α) {n i : ℕ} (h : i < n) :
    ((List.range n).map f)[i]? = some (f i) := by
  rw [List.getElem?_map, List.getElem?_range h]
  rfl

theorem asciiLowercase_getElem?_of_isLower {c : Char} (h : c.isLower = true) :
    asciiLowercase[c.toNat - 97]? = some c := by
  have hb := (char_isLower_iff c).mp h
  rw [asciiLowercase_eq_range, range_map_getElem? _ (by omega)]
  have h97 : 97 + (c.toNat - 97) = c.toNat := by omega
  rw [h97, Char.ofNat_toNat]

theorem asciiUppercase_getElem?_of_isUpper {c : Char} (h : c.isUpper = true) :
    (asciiLowercase.map Char.toUpper)[c.toNat - 65]? = some c := by
  have hb := (char_isUpper_iff c).mp h
  rw [asciiUppercase_eq_range, range_map_getElem? _ (by omega)]
  have h65 : 65 + (c.toNat - 65) = c.toNat := by omega
  rw [h65, Char.ofNat_toNat]

theorem to_symbols_getElem? (alph : List Char) (i : ℕ) :
    (to_symbols alph)[i]? = alph[i]?.map (fun c => [c]) := by
  rw [to_symbols, List.getElem?_map]

theorem to_symbols_nodup {alph : List Char} (h : alph.Nodup) :
    (to_symbols alph).Nodup :=
  h.map (fun a b hab => by injection hab)

theorem to_symbols_map_toUpper (alph : List Char) :
    (to_symbols alph).map (List.map Char.toUpper)
      = to_symbols (alph.map Char.toUpper) := by
  simp [to_symbols, List.map_map]

/-- The heart of claim C1: for a 26-entry cipher alphabet of distinct
single lowercase letters, `decipher(cipher(t)) == t`, character by
character. -/
theorem sub_roundtrip_core {alph : List Char} (hP : valid_single_alphabet alph)
    (t : List Char) :
    sub_decipher (to_symbols alph) (sub_cipher (to_symbols alph) t) = t := by
  obtain ⟨hlen, hnd, hlow⟩ := hP
  induction t with
  | nil => rfl
  | cons c t ih =>
      rw [sub_cipher, List.flatMap_cons]
      rw [sub_cipher] at ih
      have happ : ∀ l1 l2 : List Char,
          sub_decipher (to_symbols alph) (l1 ++ l2)
            = sub_decipher (to_symbols alph) l1
              ++ sub_decipher (to_symbols alph) l2 := by
        intro l1 l2
        rw [sub_decipher, sub_decipher, sub_decipher, List.map_append]
      rw [happ, ih]
      suffices h : sub_decipher (to_symbols alph)
          (if c.isLower then
              (pyDictGet (cipher_mapping_lower (to_symbols alph)) c).getD [c]
            else if c.isUpper then
              (pyDictGet (cipher_mapping_upper (to_symbols alph)) c).getD [c]
            else [c]) = [c] by
        rw [h]
        rfl
      by_cases hc : c.isLower = true
      · -- lowercase: substitute through the lowercase mapping and back
        rw [if_pos hc]
        have hb := (char_isLower_iff c).mp hc
        have hidx : c.toNat - 97 < alph.length := by omega
        obtain ⟨d, hd, hdm⟩ : ∃ d, alph[c.toNat - 97]? = some d ∧ d ∈ alph :=
          ⟨alph[c.toNat - 97], List.getElem?_eq_getElem hidx,
            List.getElem_mem hidx⟩
        have hdl : d.isLower = true := hlow d hdm
        have hfwd : pyDictGet (cipher_mapping_lower (to_symbols alph)) c
            = some [d] := by
          apply pyDictGet_zip asciiLowercase_nodup
            (asciiLowercase_getElem?_of_isLower hc)
          rw [to_symbols_getElem?, hd]
          rfl
        have hinv : pyDictGet (inverse_mapping_lower (to_symbols alph)) [d]
            = some c := by
          rw [inverse_mapping_lower, cipher_mapping_lower, List.zip_swap]
          apply pyDictGet_zip (to_symbols_nodup hnd)
          · rw [to_symbols_getElem?, hd]
            rfl
          · exact asciiLowercase_getElem?_of_isLower hc
        rw [hfwd]
        rw [show (some [d]).getD [c] = [d] from rfl]
        rw [sub_decipher]
        simp only [List.map_cons, List.map_nil]
        rw [if_pos hdl, hinv]
        rfl
      · by_cases hu : c.isUpper = true
        · -- uppercase: substitute through the uppercase mapping and back
          rw [if_neg hc, if_pos hu]
          have hb := (char_isUpper_iff c).mp hu
          have hidx : c.toNat - 65 < alph.length := by omega
          obtain ⟨d, hd, hdm⟩ : ∃ d, alph[c.toNat - 65]? = some d ∧ d ∈ alph :=
            ⟨alph[c.toNat - 65], List.getElem?_eq_getElem hidx,
              List.getElem_mem hidx⟩
          have hdl : d.isLower = true := hlow d hdm
          have hDu : d.toUpper.isUpper = true :=
            char_isUpper_toUpper_of_isLower hdl
          have hDnl : d.toUpper.isLower = false :=
            char_not_isLower_of_isUpper hDu
          have hupnd : (alph.map Char.toUpper).Nodup := by
            apply List.Nodup.map_on ?_ hnd
            intro x hx y hy hxy
            exact char_toUpper_inj_on_lower (hlow x hx) (hlow y hy) hxy
          have hfwd : pyDictGet (cipher_mapping_upper (to_symbols alph)) c
              = some [d.toUpper] := by
            rw [cipher_mapping_upper, to_symbols_map_toUpper]
            apply pyDictGet_zip asciiUppercase_nodup
              (asciiUppercase_getElem?_of_isUpper hu)
            rw [to_symbols_getElem?, List.getElem?_map, hd]
            rfl
          have hinv : pyDictGet (inverse_mapping_upper (to_symbols alph))
              [d.toUpper] = some c := by
            rw [inverse_mapping_upper, cipher_mapping_upper,
              to_symbols_map_toUpper, List.zip_swap]
            apply pyDictGet_zip (to_symbols_nodup hupnd)
            · rw [to_symbols_getElem?, List.getElem?_map, hd]
              rfl
            · exact asciiUppercase_getElem?_of_isUpper hu
          rw [hfwd]
          rw [show (some [d.toUpper]).getD [c] = [d.toUpper] from rfl]
          rw [sub_decipher]
          simp only [List.map_cons, List.map_nil]
          simp only [hDnl, Bool.false_eq_true, if_false]
          rw [if_pos hDu, hinv]
          rfl
        · -- anything else passes through both directions unchanged
          rw [if_neg hc, if_neg hu, sub_decipher]
          simp only [List.map_cons, List.map_nil]
          rw [if_neg hc, if_neg hu]

theorem mem_of_getElem?_eq_some {α : Type} {l : List α} {n : ℕ} {a : α}
    (h : l[n]? = some a) : a ∈ l := by
  obtain ⟨hlt, he⟩ := List.getElem?_eq_some.mp h
  exact he ▸ List.getElem_mem hlt

theorem isLower_mem_asciiLowercase {c : Char} (h : c.isLower = true) :
    c ∈ asciiLowercase :=
  mem_of_getElem?_eq_some (asciiLowercase_getElem?_of_isLower h)

/-- The alphabet-extension loop of `mixed_cipher_alphabets` preserves
distinctness of the accumulator. -/
theorem fold_extend_nodup (l : List Char) :
    ∀ acc : List Char, acc.Nodup →
      (l.foldl (fun acc c => if c ∈ acc then acc else acc ++ [c]) acc).Nodup := by
  induction l with
  | nil => exact fun acc h => h
  | cons c l ih =>
      intro acc hacc
      rw [List.foldl_cons]
      by_cases hc : c ∈ acc
      · rw [if_pos hc]
        exact ih acc hacc
      · rw [if_neg hc]
        refine ih _ (hacc.append (List.nodup_singleton c) ?_)
        intro x hx hx1
        rw [List.mem_singleton] at hx1
        exact hc (hx1 ▸ hx)

/-- Membership in the result of the alphabet-extension loop. -/
theorem fold_extend_mem (l : List Char) :
    ∀ (acc : List Char) (x : Char),
      x ∈ l.foldl (fun acc c => if c ∈ acc then acc else acc ++ [c]) acc
        ↔ x ∈ acc ∨ x ∈ l := by
  induction l with
  | nil => simp
  | cons c l ih =>
      intro acc x
      rw [List.foldl_cons]
      by_cases hc : c ∈ acc
      · rw [if_pos hc, ih]
        constructor
        · rintro (h | h)
          · exact Or.inl h
          · exact Or.inr (List.mem_cons_of_mem c h)
        · rintro (h | h)
          · exact Or.inl h
          · rcases List.mem_cons.mp h with h | h
            · exact Or.inl (h ▸ hc)
            · exact Or.inr h
      · rw [if_neg hc, ih]
        simp only [List.mem_append, List.mem_singleton, List.mem_cons]
        tauto

/-- When the walked list has no duplicates, the extension loop appends
exactly the elements not already in the accumulator, in order. -/
theorem fold_extend_eq_append_filter (l : List Char) :
    ∀ acc : List Char, l.Nodup →
      l.foldl (fun acc c => if c ∈ acc then acc else acc ++ [c]) acc
        = acc ++ l.filter (fun c => decide (¬ c ∈ acc)) := by
  induction l with
  | nil => simp
  | cons c l ih =>
      intro acc hnd
      rw [List.foldl_cons]
      have hcl : ¬ c ∈ l := (List.nodup_cons.mp hnd).1
      by_cases hc : c ∈ acc
      · rw [if_pos hc, ih acc (List.nodup_cons.mp hnd).2, List.filter_cons]
        simp [hc]
      · rw [if_neg hc, ih _ (List.nodup_cons.mp hnd).2, List.filter_cons]
        simp only [hc, not_false_eq_true, decide_True, if_true]
        rw [List.append_assoc, List.singleton_append]
        congr 1
        congr 1
        apply List.filter_congr
        intro x hx
        have hxc : x ≠ c := fun he => hcl (he ▸ hx)
        simp [List.mem_append, hxc]

theorem py_dedup_nodup (l : List Char) : (py_dedup l).Nodup :=
  fold_extend_nodup l [] List.nodup_nil

theorem py_dedup_mem (l : List Char) (x : Char) : x ∈ py_dedup l ↔ x ∈ l := by
  rw [py_dedup, fold_extend_mem]
  simp

/-- `MixedAlphabet` with an all-lowercase keyword builds a valid 26-letter
substitution alphabet. -/
theorem mixed_cipher_alphabets_valid (keyword : List Char)
    (hkw : ∀ c ∈ keyword, c.isLower = true) :
    valid_single_alphabet (mixed_cipher_alphabets keyword) := by
  have hDnd : (py_dedup keyword).Nodup := py_dedup_nodup keyword
  have hDsub : ∀ x ∈ py_dedup keyword, x ∈ asciiLowercase := fun x hx =>
    isLower_mem_asciiLowercase (hkw x ((py_dedup_mem keyword x).mp hx))
  have heq : mixed_cipher_alphabets keyword
      = py_dedup keyword
        ++ asciiLowercase.filter (fun c => decide (¬ c ∈ py_dedup keyword)) :=
    fold_extend_eq_append_filter asciiLowercase (py_dedup keyword)
      asciiLowercase_nodup
  have hfnd : (asciiLowercase.filter
      (fun c => decide (¬ c ∈ py_dedup keyword))).Nodup :=
    (List.filter_sublist asciiLowercase).nodup asciiLowercase_nodup
  refine ⟨?_, ?_, ?_⟩
  · -- length 26
    rw [heq, List.length_append]
    have hsplit :
        (asciiLowercase.filter (fun c => decide (c ∈ py_dedup keyword))).length
          + (asciiLowercase.filter
              (fun c => decide (¬ c ∈ py_dedup keyword))).length
          = asciiLowercase.length := by
      have hp := List.filter_append_perm
        (fun c => decide (c ∈ py_dedup keyword)) asciiLowercase
      have hlen2 := hp.length_eq
      rw [List.length_append] at hlen2
      simp only [decide_not]
      exact hlen2
    have hin : (asciiLowercase.filter
        (fun c => decide (c ∈ py_dedup keyword))).length
          = (py_dedup keyword).length := by
      apply List.Perm.length_eq
      rw [List.perm_ext_iff_of_nodup
        ((List.filter_sublist asciiLowercase).nodup asciiLowercase_nodup) hDnd]
      intro a
      simp only [List.mem_filter, decide_eq_true_eq]
      exact ⟨fun h => h.2, fun h => ⟨hDsub a h, h⟩⟩
    have haz : asciiLowercase.length = 26 := by decide
    omega
  · -- distinct
    rw [heq]
    refine hDnd.append hfnd ?_
    intro x hx hxf
    have := (List.mem_filter.mp hxf).2
    simp only [decide_eq_true_eq] at this
    exact this hx
  · -- all lowercase
    intro c hc
    rw [heq, List.mem_append] at hc
    rcases hc with h | h
    · exact hkw c ((py_dedup_mem keyword c).mp h)
    · exact mem_asciiLowercase_isLower c (List.mem_filter.mp h).1

/-- The rotated alphabet is a valid 26-letter substitution alphabet for
every integer shift. -/
theorem rotate_shift_to_valid (shift : ℤ) :
    valid_single_alphabet (rotate_shift_to shift) := by
  have hbound : ∀ x : Char, x ∈ asciiLowercase →
      97 ≤ ((((x.toNat : ℤ) - 97 + shift) % 26 + 97)).toNat
      ∧ ((((x.toNat : ℤ) - 97 + shift) % 26 + 97)).toNat ≤ 122 := by
    intro x _
    have h0 : 0 ≤ ((x.toNat : ℤ) - 97 + shift) % 26 :=
      Int.emod_nonneg _ (by norm_num)
    have h1 : ((x.toNat : ℤ) - 97 + shift) % 26 < 26 :=
      Int.emod_lt_of_pos _ (by norm_num)
    omega
  refine ⟨?_, ?_, ?_⟩
  · rw [rotate_shift_to, List.length_map]
    decide
  · rw [rotate_shift_to]
    apply List.Nodup.map_on ?_ asciiLowercase_nodup
    intro x hx y hy hxy
    obtain ⟨hx1, hx2⟩ := hbound x hx
    obtain ⟨hy1, hy2⟩ := hbound y hy
    have hxt := (char_isLower_iff x).mp (mem_asciiLowercase_isLower x hx)
    have hyt := (char_isLower_iff y).mp (mem_asciiLowercase_isLower y hy)
    have h2 := congrArg Char.toNat hxy
    rw [char_toNat_ofNat (by omega), char_toNat_ofNat (by omega)] at h2
    exact char_toNat_inj (by omega)
  · intro c hc
    rw [rotate_shift_to] at hc
    obtain ⟨x, hx, rfl⟩ := List.mem_map.mp hc
    obtain ⟨h1, h2⟩ := hbound x hx
    exact char_isLower_ofNat h1 h2

/-- A user alphabet accepted by `SimpleSubstitution`'s validation is a valid
26-letter substitution alphabet. -/
theorem simple_substitution_alphabet_valid (ca l : List Char)
    (h : simple_substitution_alphabet ca = .ok l) :
    valid_single_alphabet l := by
  unfold simple_substitution_alphabet at h
  by_cases hcond : (ca.map Char.toLower).length ≠ 26
      ∨ (ca.map Char.toLower).toFinset ≠ asciiLowercase.toFinset
  · rw [if_pos hcond] at h
    exact absurd h (by simp)
  · rw [if_neg hcond] at h
    injection h with h
    push_neg at hcond
    obtain ⟨hlen, hfin⟩ := hcond
    subst h
    have hnd : (ca.map Char.toLower).Nodup := by
      have hcard := List.card_toFinset (ca.map Char.toLower)
      rw [hfin] at hcard
      have haz : asciiLowercase.toFinset.card = 26 := by
        rw [List.toFinset_card_of_nodup asciiLowercase_nodup]
        decide
      have hded : (ca.map Char.toLower).dedup.length
          = (ca.map Char.toLower).length := by omega
      rw [← List.dedup_eq_self]
      exact (List.dedup_sublist _).eq_of_length hded
    refine ⟨hlen, hnd, ?_⟩
    intro c hc
    have hc2 : c ∈ asciiLowercase := by
      rw [← List.mem_toFinset, ← hfin, List.mem_toFinset]
      exact hc
    exact mem_asciiLowercase_isLower c hc2

/-- Claim C1: for every substitution cipher whose 26-entry cipher alphabet
consists of 26 distinct single lowercase letters — which covers Atbash,
Rotate/Caesar/Rot13/Shift for any shift, SimpleSubstitution with an accepted
alphabet, and MixedAlphabet with an all-lowercase-letter keyword — and for
every input string `t`, `decipher(cipher(t)) == t`: the case of every letter
and every non-letter character is reproduced exactly at its original
position. -/
theorem substitution_roundtrip :
    (∀ alph : List Char, valid_single_alphabet alph →
      ∀ t : List Char,
        sub_decipher (to_symbols alph) (sub_cipher (to_symbols alph) t) = t)
    ∧ valid_single_alphabet atbash_alphabet
    ∧ (∀ shift : ℤ, valid_single_alphabet (rotate_shift_to shift))
    ∧ (∀ keyword : List Char, (∀ c ∈ keyword, c.isLower = true) →
        valid_single_alphabet (mixed_cipher_alphabets keyword))
    ∧ (∀ ca l : List Char, simple_substitution_alphabet ca = .ok l →
        valid_single_alphabet l) :=
  ⟨fun _ hP => sub_roundtrip_core hP,
    ⟨by decide, by decide, by decide⟩,
    rotate_shift_to_valid,
    mixed_cipher_alphabets_valid,
    simple_substitution_alphabet_valid⟩

/-- Witness for `substitution_roundtrip`: the Atbash alphabet is valid and
round-trips a mixed-case, punctuated string. -/
theorem substitution_roundtrip_witness :
    valid_single_alphabet atbash_alphabet
    ∧ sub_decipher (to_symbols atbash_alphabet)
        (sub_cipher (to_symbols atbash_alphabet) "Hello, World 123!".data)
      = "Hello, World 123!".data :=
  ⟨⟨by decide, by decide, by decide⟩,
    substitution_roundtrip.1 atbash_alphabet ⟨by decide, by decide, by decide⟩
      "Hello, World 123!".data⟩

/-! ### The columnar transposition round trip (claim C2) -/

theorem char_isAlpha_of_isUpper {c : Char} (h : c.isUpper = true) :
    c.isAlpha = true := by
  simp [Char.isAlpha, h]

theorem char_toUpper_of_isUpper {c : Char} (h : c.isUpper = true) :
    c.toUpper = c := by
  have hb := (char_isUpper_iff c).mp h
  rw [Char.toUpper, if_neg (by omega)]

/-- Uppercase letters-only text is a fixed point of the normalisation. -/
theorem normalize_upper_id {t : List Char} (h : ∀ c ∈ t, c.isUpper = true) :
    (omit_all_except_alpha t).map Char.toUpper = t := by
  rw [omit_all_except_alpha,
    List.filter_eq_self.mpr (fun a ha => char_isAlpha_of_isUpper (h a ha))]
  calc t.map Char.toUpper
      = t.map id := List.map_congr_left
        (fun a ha => char_toUpper_of_isUpper (h a ha))
    _ = t := List.map_id t

theorem get_key_order_perm (key : List Char) :
    (get_key_order key).Perm (List.range key.length) :=
  List.perm_insertionSort _ _

theorem ceil_div_of_dvd {n k : ℕ} (hk : 0 < k) (h : k ∣ n) :
    ceil_div n k = n / k := by
  obtain ⟨m, rfl⟩ := h
  rw [ceil_div, Nat.mul_div_cancel_left m hk]
  have heq : k * m + k - 1 = (k - 1) + k * m := by omega
  rw [heq, Nat.add_mul_div_left _ _ hk, Nat.div_eq_of_lt (by omega)]
  omega

theorem filterMap_length_of_all_some {α β : Type} {l : List α} {f : α → Option β}
    (h : ∀ a ∈ l, (f a).isSome = true) : (l.filterMap f).length = l.length := by
  induction l with
  | nil => rfl
  | cons a l ih =>
      rw [List.filterMap_cons]
      cases hfa : f a with
      | none =>
          have := h a (List.mem_cons_self a l)
          rw [hfa] at this
          exact absurd this (by simp)
      | some b =>
          rw [List.length_cons, ih fun x hx => h x (List.mem_cons_of_mem a hx),
            List.length_cons]

theorem filterMap_getElem?_of_all_some {α β : Type} {l : List α}
    {f : α → Option β} (h : ∀ a ∈ l, (f a).isSome = true) :
    ∀ {i : ℕ} {a : α}, l[i]? = some a → (l.filterMap f)[i]? = f a := by
  induction l with
  | nil => intro i a ha; simp at ha
  | cons x l ih =>
      intro i a ha
      rw [List.filterMap_cons]
      cases hfx : f x with
      | none =>
          have := h x (List.mem_cons_self x l)
          rw [hfx] at this
          exact absurd this (by simp)
      | some b =>
          cases i with
          | zero =>
              rw [List.getElem?_cons_zero] at ha
              injection ha with ha
              subst ha
              show (b :: List.filterMap f l)[0]? = f x
              rw [List.getElem?_cons_zero, hfx]
          | succ i =>
              rw [List.getElem?_cons_succ] at ha
              show (b :: List.filterMap f l)[i + 1]? = f a
              rw [List.getElem?_cons_succ]
              exact ih (fun y hy => h y (List.mem_cons_of_mem x hy)) ha

theorem length_flatMap_of_uniform {α β : Type} {l : List α} {f : α → List β}
    {B : ℕ} (h : ∀ x ∈ l, (f x).length = B) :
    (l.flatMap f).length = l.length * B := by
  induction l with
  | nil => simp
  | cons a l ih =>
      rw [List.flatMap_cons, List.length_append, h a (List.mem_cons_self a l),
        ih fun x hx => h x (List.mem_cons_of_mem a hx), List.length_cons]
      ring

/-- Indexing into a concatenation of uniform-length blocks. -/
theorem flatMap_getElem?_of_uniform {α β : Type} {l : List α} {f : α → List β}
    {B : ℕ} (h : ∀ x ∈ l, (f x).length = B) :
    ∀ {j r : ℕ}, r < B → ∀ {x : α}, l[j]? = some x →
      (l.flatMap f)[j * B + r]? = (f x)[r]? := by
  induction l with
  | nil => intro j r _ x hx; simp at hx
  | cons a l ih =>
      intro j r hr x hx
      rw [List.flatMap_cons]
      cases j with
      | zero =>
          rw [List.getElem?_cons_zero] at hx
          injection hx with hx
          rw [Nat.zero_mul, Nat.zero_add, ← hx]
          exact List.getElem?_append_left
            (by rw [h a (List.mem_cons_self a l)]; exact hr)
      | succ j =>
          rw [List.getElem?_cons_succ] at hx
          rw [List.getElem?_append_right
            (by rw [h a (List.mem_cons_self a l)]; nlinarith)]
          have hidx : (j + 1) * B + r - (f a).length = j * B + r := by
            rw [h a (List.mem_cons_self a l)]
            have hexp : (j + 1) * B = j * B + B := by ring
            omega
          rw [hidx]
          exact ih (fun y hy => h y (List.mem_cons_of_mem a hy)) hr hx

theorem flatMap_congr_mem {α β : Type} {l : List α} {f g : α → List β}
    (h : ∀ x ∈ l, f x = g x) : l.flatMap f = l.flatMap g := by
  induction l with
  | nil => rfl
  | cons a l ih =>
      rw [List.flatMap_cons, List.flatMap_cons, h a (List.mem_cons_self a l),
        ih fun x hx => h x (List.mem_cons_of_mem a hx)]

theorem filterMap_congr_mem {α β : Type} {l : List α} {f g : α → Option β}
    (h : ∀ x ∈ l, f x = g x) : l.filterMap f = l.filterMap g := by
  induction l with
  | nil => rfl
  | cons a l ih =>
      rw [List.filterMap_cons, List.filterMap_cons,
        h a (List.mem_cons_self a l),
        ih fun x hx => h x (List.mem_cons_of_mem a hx)]

/-- Collecting `p[0]?, …, p[k-1]?` rebuilds the `k`-prefix of `p`. -/
theorem filterMap_range_getElem?_eq_take (p : List Char) (k : ℕ) :
    (List.range k).filterMap (fun c => p[c]?) = p.take k := by
  induction k with
  | zero => simp
  | succ k ih =>
      rw [List.range_succ, List.filterMap_append, ih, List.take_succ]
      simp only [List.filterMap_cons, List.filterMap_nil]
      cases p[k]? <;> rfl

/-- Reading a `rows × k` grid of the characters of `p` row-major rebuilds
`p`. -/
theorem flatMap_range_chunks (p : List Char) (rows k : ℕ)
    (hlen : p.length = rows * k) :
    (List.range rows).flatMap
      (fun r => (List.range k).filterMap (fun c => p[r * k + c]?)) = p := by
  induction rows generalizing p with
  | zero =>
      cases p with
      | nil => rfl
      | cons a p => simp at hlen
  | succ rows ih =>
      rw [List.range_succ_eq_map, List.flatMap_cons]
      have hfirst : (List.range k).filterMap (fun c => p[0 * k + c]?)
          = p.take k := by
        rw [← filterMap_range_getElem?_eq_take p k]
        apply filterMap_congr_mem
        intro c _
        rw [Nat.zero_mul, Nat.zero_add]
      have hrest : (List.map Nat.succ (List.range rows)).flatMap
            (fun r => (List.range k).filterMap (fun c => p[r * k + c]?))
          = (List.range rows).flatMap
            (fun r => (List.range k).filterMap (fun c => (p.drop k)[r * k + c]?)) := by
        rw [List.flatMap_map]
        apply flatMap_congr_mem
        intro r _
        apply filterMap_congr_mem
        intro c _
        show p[(r + 1) * k + c]? = (p.drop k)[r * k + c]?
        rw [List.getElem?_drop]
        congr 1
        ring
      rw [hfirst, hrest, ih (p.drop k) (by rw [List.length_drop, hlen]; ring_nf; omega)]
      exact List.take_append_drop k p

/-- Claim C2 as amended: the columnar transposition round trip holds for
every non-empty alphabetic key and every uppercase letters-only input WHOSE
LENGTH IS A MULTIPLE OF THE KEY LENGTH (the quantifier over ragged lengths
fails, see the counterexample: `decipher` refills whole columns, so short
columns of the cipher grid are misaligned); in particular
`decipher(cipher("HELLOWORLD")) == "HELLOWORLD"` for key `"ZEBRA"`. -/
theorem columnar_roundtrip_on_multiples :
    (∀ key t : List Char, key ≠ [] → (∀ c ∈ key, c.isAlpha = true) →
      (∀ c ∈ t, c.isUpper = true) → key.length ∣ t.length →
      columnar_decipher key (columnar_cipher key t) = t)
    ∧ columnar_decipher "ZEBRA".data (columnar_cipher "ZEBRA".data "HELLOWORLD".data)
        = "HELLOWORLD".data := by
  refine ⟨fun key t hkey halpha hupper hdvd => ?_, by decide⟩
  have hk0 : 0 < key.length := List.length_pos.mpr hkey
  have hkK : (key.map Char.toUpper).length = key.length := List.length_map _ _
  have hkpos : 0 < (key.map Char.toUpper).length := by omega
  have hdvd2 : (key.map Char.toUpper).length ∣ t.length := by
    rw [hkK]
    exact hdvd
  obtain ⟨m, hm⟩ := hdvd2
  have hnorm : (omit_all_except_alpha t).map Char.toUpper = t :=
    normalize_upper_id hupper
  have hrows : ceil_div t.length (key.map Char.toUpper).length = m := by
    rw [ceil_div_of_dvd hkpos ⟨m, hm⟩, hm,
      Nat.mul_div_cancel_left m hkpos]
  -- closed form of the ciphertext: columns of `t` in key order
  have hcip : columnar_cipher key t
      = (get_key_order (key.map Char.toUpper)).flatMap (fun c =>
          (List.range m).filterMap (fun r =>
            t[r * (key.map Char.toUpper).length + c]?)) := by
    simp only [columnar_cipher]
    rw [hnorm, hrows]
  have horder := get_key_order_perm (key.map Char.toUpper)
  have homem : ∀ c : ℕ, c ∈ get_key_order (key.map Char.toUpper)
      ↔ c < (key.map Char.toUpper).length := by
    intro c
    rw [horder.mem_iff, List.mem_range]
  have horderlen : (get_key_order (key.map Char.toUpper)).length
      = (key.map Char.toUpper).length := by
    rw [horder.length_eq, List.length_range]
  -- every cell of the grid is populated when the length divides evenly
  have hfull : ∀ c < (key.map Char.toUpper).length, ∀ r < m,
      r * (key.map Char.toUpper).length + c < t.length := by
    intro c hc r hr
    have h1 : r * (key.map Char.toUpper).length + c
        < (r + 1) * (key.map Char.toUpper).length := by
      have : (r + 1) * (key.map Char.toUpper).length
          = r * (key.map Char.toUpper).length
            + (key.map Char.toUpper).length := by ring
      omega
    have h2 : (r + 1) * (key.map Char.toUpper).length
        ≤ m * (key.map Char.toUpper).length :=
      Nat.mul_le_mul_right _ hr
    rw [hm]
    have h3 : (key.map Char.toUpper).length * m
        = m * (key.map Char.toUpper).length := by ring
    omega
  have hcolsome : ∀ c < (key.map Char.toUpper).length, ∀ r ∈ List.range m,
      (t[r * (key.map Char.toUpper).length + c]?).isSome = true := by
    intro c hc r hr
    rw [List.getElem?_eq_getElem (hfull c hc r (List.mem_range.mp hr))]
    rfl
  have hcollen : ∀ c ∈ get_key_order (key.map Char.toUpper),
      ((List.range m).filterMap (fun r =>
        t[r * (key.map Char.toUpper).length + c]?)).length = m := by
    intro c hc
    rw [filterMap_length_of_all_some (hcolsome c ((homem c).mp hc)),
      List.length_range]
  have hctlen : (columnar_cipher key t).length = t.length := by
    rw [hcip, length_flatMap_of_uniform hcollen, horderlen, hm]
  have hrows2 : ceil_div (columnar_cipher key t).length
      (key.map Char.toUpper).length = m := by
    rw [hctlen, hrows]
  -- unfold the decipherer to its closed form
  have hdec : columnar_decipher key (columnar_cipher key t)
      = (List.range m).flatMap (fun r =>
          (List.range (key.map Char.toUpper).length).filterMap (fun c =>
            (columnar_cipher key t)[List.indexOf c
              (get_key_order (key.map Char.toUpper)) * m + r]?)) := by
    simp only [columnar_decipher]
    rw [hrows2]
  rw [hdec]
  -- each fetched cell is the original character at (r, c)
  have hcell : ∀ r ∈ List.range m,
      ∀ c ∈ List.range (key.map Char.toUpper).length,
      (columnar_cipher key t)[List.indexOf c
          (get_key_order (key.map Char.toUpper)) * m + r]?
        = t[r * (key.map Char.toUpper).length + c]? := by
    intro r hr c hc
    have hcm : c ∈ get_key_order (key.map Char.toUpper) :=
      (homem c).mpr (List.mem_range.mp hc)
    have hij : List.indexOf c (get_key_order (key.map Char.toUpper))
        < (get_key_order (key.map Char.toUpper)).length :=
      List.indexOf_lt_length.mpr hcm
    have hordget : (get_key_order (key.map Char.toUpper))[List.indexOf c
        (get_key_order (key.map Char.toUpper))]? = some c := by
      rw [List.getElem?_eq_getElem hij, List.getElem_indexOf hij]
    rw [hcip,
      flatMap_getElem?_of_uniform hcollen (List.mem_range.mp hr) hordget,
      filterMap_getElem?_of_all_some
        (hcolsome c (List.mem_range.mp hc))
        (List.getElem?_range (List.mem_range.mp hr))]
  calc (List.range m).flatMap (fun r =>
          (List.range (key.map Char.toUpper).length).filterMap (fun c =>
            (columnar_cipher key t)[List.indexOf c
              (get_key_order (key.map Char.toUpper)) * m + r]?))
      = (List.range m).flatMap (fun r =>
          (List.range (key.map Char.toUpper).length).filterMap (fun c =>
            t[r * (key.map Char.toUpper).length + c]?)) := by
        apply flatMap_congr_mem
        intro r hr
        exact filterMap_congr_mem (hcell r hr)
    _ = t := flatMap_range_chunks t m (key.map Char.toUpper).length
        (by rw [hm]; ring)

/-- Witness for `columnar_roundtrip_on_multiples`: key `"ZEBRA"`, input
`"HELLOWORLD"` (length 10, a multiple of 5). -/
theorem columnar_roundtrip_on_multiples_witness :
    ("ZEBRA".data ≠ [] ∧ "ZEBRA".data.length ∣ "HELLOWORLD".data.length)
    ∧ columnar_decipher "ZEBRA".data
        (columnar_cipher "ZEBRA".data "HELLOWORLD".data)
      = "HELLOWORLD".data :=
  ⟨⟨by decide, by decide⟩,
    columnar_roundtrip_on_multiples.1 "ZEBRA".data "HELLOWORLD".data
      (by decide) (by decide) (by decide) (by decide)⟩
